import Mathlib

/-!
Shallow embedding of the client-side aggregation and bulk-fetch module of
the placement-tracker dashboard (file `src/unnamed/part_000`).

Modelling conventions:
* JS numbers carrying compensation values are modelled as `Rat` (the code
  only adds, divides, compares and rounds them; no float rounding is
  relevant to the claims).
* A JS value that may be `null`/`undefined` is modelled as an `Option`.
  `Number(x) || 0` (lenient coercion of a missing or non-numeric `ctc`)
  is modelled by `Option.getD 0`: a missing/non-numeric value behaves as 0.
* A record's `created_at` timestamp is only ever consumed through
  `new Date(...).getFullYear()`, `.getMonth()` and a locale month label,
  so an offer carries the parsed `year` and `monthNum` (0-11, as returned
  by `getMonth`) directly.
* A JS object used as a keyed accumulator is modelled as an insertion-ordered
  association list; `Object.values` is the list of its records.
-/

/-- An offer row, with the fields the aggregation code reads. -/
structure Offer where
  company : Option String
  ctc : Option Rat
  year : Nat
  monthNum : Nat
  reg_no : Option String
deriving DecidableEq

/-- A record of any of the keyed accumulators in the dashboard.  JS records
are dynamic, so one record type carries every field any aggregate uses;
a field a given aggregate never writes models a JS `undefined` field
(`none` / the neutral default the code's reads coerce it to). -/
structure StatRec where
  company : String
  branch : String
  total : Nat
  month : String
  ctc : Rat
  ctcRange : String
  ctcValues : List Rat
  avg : Option Rat
  median : Option Rat
deriving DecidableEq

/-- The pair returned by `calcStats`. -/
structure Stats where
  avg : Rat
  median : Rat
deriving DecidableEq

/-- `Number(x.toFixed(2))`: round to 2 decimal digits, ties toward the
larger candidate (the ECMAScript `toFixed` rule). -/
def round2 (x : Rat) : Rat := ((⌊x * 100 + 1 / 2⌋ : Int) : Rat) / 100

/-- `calcStats(values)` (lines 19-27): average and median of a list of
numbers, both rounded to 2 decimals; `{avg: 0, median: 0}` when the input
is missing or empty. -/
def calcStats (values : Option (List Rat)) : Stats :=
  match values with
  | none => { avg := 0, median := 0 }
  | some vs =>
    if vs.length = 0 then { avg := 0, median := 0 }
    else
      let avg := vs.sum / (vs.length : Rat)
      let sorted := vs.mergeSort (fun a b => decide (a ≤ b))
      let mid := sorted.length / 2
      let median :=
        if sorted.length % 2 ≠ 0 then sorted.getD mid 0
        else (sorted.getD (mid - 1) 0 + sorted.getD mid 0) / 2
      { avg := round2 avg, median := round2 median }

/-- `getBranch(reg)` (line 89): `reg ? reg.substring(2, 5) : "UNK"`.
`substring(2, 5)` takes the characters at positions 2, 3, 4, clamped to
the string's length; a falsy `reg` (absent or the empty string) gives the
sentinel `"UNK"`. -/
def getBranch (reg : Option String) : String :=
  match reg with
  | none => "UNK"
  | some s => if s = "" then "UNK" else ⟨(s.data.drop 2).take 3⟩

/-- `getCtcRange(ctc)` (lines 91-98): the first-match threshold ladder. -/
def getCtcRange (ctc : Rat) : String :=
  if ctc < 5 then "<5"
  else if ctc < 10 then "5-10"
  else if ctc < 15 then "10-15"
  else if ctc < 20 then "15-20"
  else if ctc < 30 then "20+"
  else "30+"

/-- `Number(p.ctc) || 0`: the compensation of an offer, 0 when missing. -/
def ctcNum (p : Offer) : Rat := p.ctc.getD 0

/-- `p.company || "Unknown"`: the company grouping key; a falsy company
(absent or the empty string) groups under `"Unknown"`. -/
def compKey (p : Offer) : String :=
  match p.company with
  | none => "Unknown"
  | some s => if s = "" then "Unknown" else s

/-- The locale short-month name used by
`toLocaleString("default", {month: "short", year: "numeric"})`. -/
def monthShort (m : Nat) : String :=
  match m with
  | 0 => "Jan" | 1 => "Feb" | 2 => "Mar" | 3 => "Apr"
  | 4 => "May" | 5 => "Jun" | 6 => "Jul" | 7 => "Aug"
  | 8 => "Sep" | 9 => "Oct" | 10 => "Nov" | _ => "Dec"

/-- The display label `"<short month> <year>"` of an offer's month. -/
def monthLabel (y : Nat) (m : Nat) : String :=
  monthShort m ++ " " ++ toString y

/-- The grouping key of `monthlyTrends`: the template string
`"<full year>-<getMonth() + 1>"` (line 142). -/
def monthKey (y : Nat) (m : Nat) : String :=
  toString y ++ "-" ++ toString (m + 1)

/-- `fetchAllRows(tableName, chunkSize)` (lines 30-51), with the remote
table modelled as the list `rows` it holds in server order and the range
request `.range(off, off + chunkSize - 1)` modelled as
`(rows.drop off).take chunkSize` (an inclusive index range, clamped at the
end of the table).  The loop accumulating `allRows` is the recursion:
stop on an empty page or a short page, otherwise advance the offset by
exactly `chunkSize`. -/
def fetchAllRows {α : Type} (rows : List α) (chunkSize : Nat) (off : Nat) :
    List α :=
  let data := (rows.drop off).take chunkSize
  if data.length = 0 then []
  else if data.length < chunkSize then data
  else data ++ fetchAllRows rows chunkSize (off + chunkSize)
termination_by rows.length - off
decreasing_by
  rename_i h1 h2
  unfold data at h1 h2
  simp only [List.length_take, List.length_drop] at h1 h2
  omega

/-- `fetchAllRows` with a fallible transport: the request at offset `off`
fails with `err off` when that is `some e` (the `if (error) throw error`
branch, line 40), and otherwise serves the same page as above.  A thrown
error aborts the loop, discarding the rows accumulated so far. -/
def fetchAllRowsE {α ε : Type} (rows : List α) (err : Nat → Option ε)
    (chunkSize : Nat) (off : Nat) : Except ε (List α) :=
  match err off with
  | some e => Except.error e
  | none =>
    let data := (rows.drop off).take chunkSize
    if data.length = 0 then Except.ok []
    else if data.length < chunkSize then Except.ok data
    else
      match fetchAllRowsE rows err chunkSize (off + chunkSize) with
      | Except.error e => Except.error e
      | Except.ok rest => Except.ok (data ++ rest)
termination_by rows.length - off
decreasing_by
  rename_i h1 h2
  unfold data at h1 h2
  simp only [List.length_take, List.length_drop] at h1 h2
  omega

/-- One iteration of the `companyStats` loop (lines 102-120): create the
record for the offer's company key if absent (with `total: 0`, the month
label of this first offer, `ctc: 0`, `ctcRange: ""`), then increment its
`total` and overwrite its `ctc` and `ctcRange` with this offer's values. -/
def companyStep (stats : List StatRec) (p : Offer) : List StatRec :=
  let comp := compKey p
  let stats1 :=
    if stats.any (fun s => s.company = comp) then stats
    else stats ++ [{ company := comp, branch := "", total := 0,
                     month := monthLabel p.year p.monthNum, ctc := 0,
                     ctcRange := "", ctcValues := [], avg := none,
                     median := none }]
  stats1.map (fun s =>
    if s.company = comp then
      { s with total := s.total + 1, ctc := ctcNum p,
               ctcRange := getCtcRange (ctcNum p) }
    else s)

/-- `companyStats` (lines 100-122): fold the loop over the offers and take
the accumulator's records in insertion order. -/
def companyStats (ps : List Offer) : List StatRec :=
  ps.foldl companyStep []

/-- One iteration of the `branchStats` loop (lines 126-131): create the
record for the offer's branch code if absent, then increment its `total`
and push the offer's compensation onto its `ctcValues`. -/
def branchStep (stats : List StatRec) (p : Offer) : List StatRec :=
  let b := getBranch p.reg_no
  let stats1 :=
    if stats.any (fun s => s.branch = b) then stats
    else stats ++ [{ company := "", branch := b, total := 0, month := "",
                     ctc := 0, ctcRange := "", ctcValues := [], avg := none,
                     median := none }]
  stats1.map (fun s =>
    if s.branch = b then
      { s with total := s.total + 1, ctcValues := s.ctcValues ++ [ctcNum p] }
    else s)

/-- `branchStats` (lines 124-136): fold the loop over the offers, then
spread `calcStats(b.ctcValues)` into each record. -/
def branchStats (ps : List Offer) : List StatRec :=
  (ps.foldl branchStep []).map (fun b =>
    let st := calcStats (some b.ctcValues)
    { b with avg := some st.avg, median := some st.median })

/-- One iteration of the `monthlyTrends` loop (lines 140-149), keyed by the
string `"<year>-<month+1>"`; the association pair keeps that object key. -/
def monthStep (stats : List (String × StatRec)) (p : Offer) :
    List (String × StatRec) :=
  let key := monthKey p.year p.monthNum
  let stats1 :=
    if stats.any (fun s => s.1 = key) then stats
    else stats ++ [(key, { company := "", branch := "",
                           total := 0, month := monthLabel p.year p.monthNum,
                           ctc := 0, ctcRange := "", ctcValues := [],
                           avg := none, median := none })]
  stats1.map (fun s =>
    if s.1 = key then (s.1, { s.2 with total := s.2.total + 1 }) else s)

/-- The keyed accumulator of `monthlyTrends` after the full scan. -/
def monthlyTrendsAux (ps : List Offer) : List (String × StatRec) :=
  ps.foldl monthStep []

/-- `monthlyTrends` (lines 138-151): `Object.values` of the accumulator. -/
def monthlyTrends (ps : List Offer) : List StatRec :=
  (monthlyTrendsAux ps).map Prod.snd

/-- `hay.includes(pat)` on character lists: some contiguous run of `hay`
starts with `pat`. -/
def strStarts : List Char → List Char → Bool
  | _, [] => true
  | [], _ :: _ => false
  | a :: as, b :: bs => a = b && strStarts as bs

/-- `String.prototype.includes`. -/
def strIncludes : List Char → List Char → Bool
  | [], pat => strStarts [] pat
  | a :: as, pat => strStarts (a :: as) pat || strIncludes as pat

/-- The filtering stage of `filterAndSort` (lines 154-164): when the search
term is truthy, keep the records whose grouping key field (`company` for
company aggregates, `branch` otherwise) contains it case-insensitively;
then, for company aggregates with a selected range other than `"all"`,
keep the records whose `ctcRange` equals the selected range. -/
def applyFilters (data : List StatRec) (type : String) (search : String)
    (selectedRange : String) : List StatRec :=
  let filtered :=
    if search = "" then data
    else data.filter (fun d =>
      strIncludes ((if type = "company" then d.company else d.branch).data.map
          Char.toLower)
        (search.data.map Char.toLower))
  if type = "company" ∧ selectedRange ≠ "all" then
    filtered.filter (fun d => d.ctcRange = selectedRange)
  else filtered

/-- `filterAndSort(data, type)` (lines 153-173), with the ambient component
state (`search`, `selectedRange`, `sortBy`) passed explicitly.  The JS
`[...].sort(comparator)` is a stable sort by the comparator's descending
numeric key; `(b.avg || 0)` / `(b.median || 0)` coerce the field a company
aggregate lacks to 0. -/
def filterAndSort (data : List StatRec) (type : String) (search : String)
    (selectedRange : String) (sortBy : String) : List StatRec :=
  let filtered := applyFilters data type search selectedRange
  if sortBy = "students" then
    filtered.mergeSort (fun a b => decide (b.total ≤ a.total))
  else if sortBy = "avg" then
    filtered.mergeSort (fun a b => decide (b.avg.getD 0 ≤ a.avg.getD 0))
  else if sortBy = "median" then
    filtered.mergeSort (fun a b => decide (b.median.getD 0 ≤ a.median.getD 0))
  else filtered

/-- The offers grouped under company key `c`. -/
def offersFor (c : String) (ps : List Offer) : List Offer :=
  ps.filter (fun p => compKey p = c)

/-- Modelled from the spec: the true statistical median of a numeric
sequence — the middle element of the ascending-sorted sequence, or the
average of the two middle elements when the count is even. -/
def trueMedian (vs : List Rat) : Rat :=
  let sorted := vs.mergeSort (fun a b => decide (a ≤ b))
  if sorted.length % 2 = 1 then sorted.getD (sorted.length / 2) 0
  else (sorted.getD (sorted.length / 2 - 1) 0 + sorted.getD (sorted.length / 2) 0) / 2

/-- The numeric value of a decimal digit character. -/
def charVal (c : Char) : Nat := c.toNat - ('0').toNat

/-- Read a big-endian list of decimal digit characters back as a number. -/
def parseDigits (ds : List Char) : Nat :=
  ds.foldl (fun a c => a * 10 + charVal c) 0

theorem fetchAllRows_eq_drop {α : Type} (rows : List α) (chunkSize : Nat)
    (h : 0 < chunkSize) :
    ∀ n off, rows.length - off ≤ n →
      fetchAllRows rows chunkSize off = rows.drop off := by
  intro n
  induction n with
  | zero =>
    intro off hle
    have hdrop : rows.drop off = [] := List.drop_eq_nil_of_le (by omega)
    rw [fetchAllRows]
    simp [hdrop]
  | succ n ih =>
    intro off hle
    rw [fetchAllRows]
    simp only [List.length_take, List.length_drop]
    split_ifs with h0 h1
    · have hdrop : rows.drop off = [] :=
        List.eq_nil_of_length_eq_zero (by simp only [List.length_drop]; omega)
      rw [hdrop]
    · exact List.take_of_length_le (by simp only [List.length_drop]; omega)
    · rw [ih (off + chunkSize) (by omega)]
      have hdd : rows.drop (off + chunkSize) = (rows.drop off).drop chunkSize := by
        rw [List.drop_drop]
      rw [hdd, List.take_append_drop]

/-- C1: for every backing table holding `rows` in server order (any row
count, including an exact multiple of the page size) and every positive
page size, `fetchAllRows` terminates (it is a total function) and returns
exactly the table's rows in server order, with no duplicate and no
missing rows; the loop stops on a short or empty page and the offset
advances by exactly the page size after each full page. -/
theorem fetchAllRows_returns_all {α : Type} (rows : List α) (chunkSize : Nat)
    (h : 0 < chunkSize) : fetchAllRows rows chunkSize 0 = rows := by
  simpa using fetchAllRows_eq_drop rows chunkSize h rows.length 0 (by omega)

theorem fetchAllRows_returns_all_witness :
    0 < 1000 ∧
      fetchAllRows (List.range 999) 1000 0 = List.range 999 ∧
      fetchAllRows (List.range 1000) 1000 0 = List.range 1000 ∧
      fetchAllRows (List.range 1001) 1000 0 = List.range 1001 :=
  ⟨by decide, fetchAllRows_returns_all _ 1000 (by decide),
    fetchAllRows_returns_all _ 1000 (by decide),
    fetchAllRows_returns_all _ 1000 (by decide)⟩

theorem fetchAllRowsE_ok_aux {α ε : Type} (rows : List α) (err : Nat → Option ε)
    (chunkSize : Nat) (h : 0 < chunkSize) :
    ∀ n off l, rows.length - off ≤ n →
      fetchAllRowsE rows err chunkSize off = Except.ok l →
      l = rows.drop off ∧
        ∀ k, off + chunkSize * k ≤ rows.length → err (off + chunkSize * k) = none := by
  intro n
  induction n with
  | zero =>
    intro off l hle hres
    rw [fetchAllRowsE] at hres
    cases herr : err off with
    | some e => rw [herr] at hres; cases hres
    | none =>
      rw [herr] at hres
      have hdrop : rows.drop off = [] := List.drop_eq_nil_of_le (by omega)
      simp only [hdrop, List.take_nil, List.length_nil, if_pos rfl] at hres
      cases hres
      refine ⟨hdrop.symm, ?_⟩
      intro k hk
      have hk0 : k = 0 := by
        by_contra hne
        have h1k : 1 ≤ k := Nat.one_le_iff_ne_zero.mpr hne
        have h2k : chunkSize ≤ chunkSize * k := Nat.le_mul_of_pos_right _ (by omega)
        omega
      subst hk0
      simpa using herr
  | succ n ih =>
    intro off l hle hres
    rw [fetchAllRowsE] at hres
    cases herr : err off with
    | some e => rw [herr] at hres; cases hres
    | none =>
      rw [herr] at hres
      simp only [List.length_take, List.length_drop] at hres
      split_ifs at hres with h0 h1
      · cases hres
        have hdrop : rows.drop off = [] :=
          List.eq_nil_of_length_eq_zero (by simp only [List.length_drop]; omega)
        refine ⟨hdrop.symm, ?_⟩
        intro k hk
        have hk0 : k = 0 := by
          by_contra hne
          have h1k : 1 ≤ k := Nat.one_le_iff_ne_zero.mpr hne
          have h2k : chunkSize ≤ chunkSize * k := Nat.le_mul_of_pos_right _ (by omega)
          omega
        subst hk0
        simpa using herr
      · cases hres
        refine ⟨(List.take_of_length_le (by simp only [List.length_drop]; omega)), ?_⟩
        intro k hk
        have hk0 : k = 0 := by
          by_contra hne
          have h1k : 1 ≤ k := Nat.one_le_iff_ne_zero.mpr hne
          have h2k : chunkSize ≤ chunkSize * k := Nat.le_mul_of_pos_right _ (by omega)
          omega
        subst hk0
        simpa using herr
      · cases hrec : fetchAllRowsE rows err chunkSize (off + chunkSize) with
        | error e => rw [hrec] at hres; cases hres
        | ok rest =>
          rw [hrec] at hres
          cases hres
          obtain ⟨hrest, herrs⟩ := ih (off + chunkSize) rest (by omega) hrec
          constructor
          · rw [hrest]
            have hdd : rows.drop (off + chunkSize) = (rows.drop off).drop chunkSize := by
              rw [List.drop_drop]
            rw [hdd, List.take_append_drop]
          · intro k hk
            cases k with
            | zero => simpa using herr
            | succ k' =>
              have hoff : off + chunkSize * (k' + 1) =
                  (off + chunkSize) + chunkSize * k' := by ring
              rw [hoff]
              exact herrs k' (by omega)

theorem fetchAllRowsE_error_aux {α ε : Type} (rows : List α) (err : Nat → Option ε)
    (chunkSize : Nat) (h : 0 < chunkSize) :
    ∀ n off e, rows.length - off ≤ n →
      fetchAllRowsE rows err chunkSize off = Except.error e →
      ∃ k, err (off + chunkSize * k) = some e := by
  intro n
  induction n with
  | zero =>
    intro off e hle hres
    rw [fetchAllRowsE] at hres
    cases herr : err off with
    | some e' =>
      rw [herr] at hres
      cases hres
      exact ⟨0, by simpa using herr⟩
    | none =>
      rw [herr] at hres
      have hdrop : rows.drop off = [] := List.drop_eq_nil_of_le (by omega)
      simp only [hdrop, List.take_nil, List.length_nil, if_pos rfl] at hres
      cases hres
  | succ n ih =>
    intro off e hle hres
    rw [fetchAllRowsE] at hres
    cases herr : err off with
    | some e' =>
      rw [herr] at hres
      cases hres
      exact ⟨0, by simpa using herr⟩
    | none =>
      rw [herr] at hres
      simp only [List.length_take, List.length_drop] at hres
      split_ifs at hres with h0 h1
      cases hrec : fetchAllRowsE rows err chunkSize (off + chunkSize) with
      | error e' =>
        rw [hrec] at hres
        cases hres
        obtain ⟨k, hk⟩ := ih (off + chunkSize) e (by omega) hrec
        refine ⟨k + 1, ?_⟩
        have hoff : off + chunkSize * (k + 1) = (off + chunkSize) + chunkSize * k := by
          ring
        rw [hoff]
        exact hk
      | ok rest => rw [hrec] at hres; cases hres

/-- C5: with a fallible transport (the request at offset `o` fails exactly
when `err o = some e`), a bulk fetch that succeeds returns the complete
table and made only successful page requests, and a bulk fetch that fails
surfaces an error that is the underlying cause of some page request it
made — it never silently returns partially accumulated rows on a
transport-level failure (an `Except.error` result carries no rows at
all). -/
theorem fetchAllRowsE_failfast {α ε : Type} (rows : List α)
    (err : Nat → Option ε) (chunkSize : Nat) (h : 0 < chunkSize) :
    (∀ l, fetchAllRowsE rows err chunkSize 0 = Except.ok l →
      l = rows ∧ ∀ k, chunkSize * k ≤ rows.length → err (chunkSize * k) = none) ∧
    (∀ e, fetchAllRowsE rows err chunkSize 0 = Except.error e →
      ∃ k, err (chunkSize * k) = some e) := by
  constructor
  · intro l hres
    obtain ⟨h1, h2⟩ :=
      fetchAllRowsE_ok_aux rows err chunkSize h rows.length 0 l (by omega) hres
    refine ⟨by simpa using h1, ?_⟩
    intro k hk
    simpa using h2 k (by omega)
  · intro e hres
    obtain ⟨k, hk⟩ :=
      fetchAllRowsE_error_aux rows err chunkSize h rows.length 0 e (by omega) hres
    exact ⟨k, by simpa using hk⟩

theorem fetchAllRowsE_failfast_witness :
    (0 < 2 ∧
      ∃ k, (fun o => if o = 2 then some 7 else none) (2 * k) = some 7) := by
  refine ⟨by decide, ?_⟩
  refine (fetchAllRowsE_failfast [10, 20, 30, 40]
    (fun o => if o = 2 then some 7 else none) 2 (by decide)).2 7 ?_
  rw [fetchAllRowsE]
  norm_num
  rw [fetchAllRowsE]
  norm_num

/-- C3: `getCtcRange` is a total function returning exactly one of the six
bucket labels, evaluated as a first-match threshold ladder: values below 5
(including every negative value) give `"<5"`, `[5,10)` gives `"5-10"`,
`[10,15)` gives `"10-15"`, `[15,20)` gives `"15-20"`, `[20,30)` gives
`"20+"` (the `"20+"` bucket is reachable only there) and values `≥ 30`
give `"30+"`. -/
theorem getCtcRange_buckets (c : Rat) :
    (getCtcRange c = "<5" ↔ c < 5) ∧
    (getCtcRange c = "5-10" ↔ 5 ≤ c ∧ c < 10) ∧
    (getCtcRange c = "10-15" ↔ 10 ≤ c ∧ c < 15) ∧
    (getCtcRange c = "15-20" ↔ 15 ≤ c ∧ c < 20) ∧
    (getCtcRange c = "20+" ↔ 20 ≤ c ∧ c < 30) ∧
    (getCtcRange c = "30+" ↔ 30 ≤ c) ∧
    (getCtcRange c = "<5" ∨ getCtcRange c = "5-10" ∨ getCtcRange c = "10-15" ∨
      getCtcRange c = "15-20" ∨ getCtcRange c = "20+" ∨ getCtcRange c = "30+") := by
  unfold getCtcRange
  split_ifs with h1 h2 h3 h4 h5 <;>
    refine ⟨?_, ?_, ?_, ?_, ?_, ?_, ?_⟩ <;>
    simp_all <;>
    first
      | linarith
      | (intro hx; linarith)

theorem getCtcRange_buckets_witness :
    getCtcRange (-3) = "<5" ∧ getCtcRange 25 = "20+" :=
  ⟨(getCtcRange_buckets (-3)).1.mpr (by norm_num),
    ((getCtcRange_buckets 25).2.2.2.2.1).mpr (by norm_num)⟩

/-- C6: `getBranch` returns the substring of `reg_no` at 0-indexed
character positions 2 through 4 (the half-open range `[2,5)`, i.e. drop 2
characters then take 3) with no length validation — a string shorter than
5 characters yields a shorter or empty code — and returns the sentinel
unknown-branch value (`"UNK"`) for a falsy/absent `reg_no`. -/
theorem getBranch_spec :
    getBranch none = "UNK" ∧
    (∀ s : String, s ≠ "" → (getBranch (some s)).data = (s.data.drop 2).take 3) ∧
    getBranch (some "AB123CDE") = "123" ∧
    (∀ s : String, s ≠ "" → (getBranch (some s)).length = min 3 (s.length - 2)) := by
  refine ⟨rfl, ?_, by decide, ?_⟩
  · intro s hs
    show (if s = "" then "UNK" else (⟨(s.data.drop 2).take 3⟩ : String)).data
        = (s.data.drop 2).take 3
    rw [if_neg hs]
  · intro s hs
    show (if s = "" then "UNK" else (⟨(s.data.drop 2).take 3⟩ : String)).length
        = min 3 (s.length - 2)
    rw [if_neg hs]
    show ((s.data.drop 2).take 3).length = min 3 (s.length - 2)
    simp only [List.length_take, List.length_drop]
    rfl

theorem getBranch_spec_witness :
    (getBranch (some "AB")).data = (("AB" : String).data.drop 2).take 3 :=
  getBranch_spec.2.1 "AB" (by decide)

/-- C4: `calcStats` of a non-empty sequence returns the arithmetic mean
rounded to 2 decimal digits and the true statistical median (middle
element of the ascending-sorted sequence, average of the two middle
elements for an even count) rounded to 2 decimal digits; a missing or
empty input returns `{avg: 0, median: 0}` through the early guard, so the
division by the length is never reached on an empty input (`calcStats` is
a total function). -/
theorem calcStats_spec :
    calcStats none = { avg := 0, median := 0 } ∧
    calcStats (some []) = { avg := 0, median := 0 } ∧
    ∀ vs : List Rat, vs ≠ [] →
      calcStats (some vs) = { avg := round2 (vs.sum / (vs.length : Rat)),
                              median := round2 (trueMedian vs) } := by
  refine ⟨rfl, rfl, ?_⟩
  intro vs hvs
  have hlen : vs.length ≠ 0 := by simpa using hvs
  simp only [calcStats, trueMedian, hlen, if_neg hlen]
  rcases Nat.mod_two_eq_zero_or_one (vs.mergeSort (fun a b => decide (a ≤ b))).length
      with hp | hp <;> simp [hp]

theorem calcStats_spec_witness :
    calcStats (some [3, 1, 2]) =
      { avg := round2 (([3, 1, 2] : List Rat).sum / (([3, 1, 2] : List Rat).length : Rat)),
        median := round2 (trueMedian [3, 1, 2]) } :=
  calcStats_spec.2.2 [3, 1, 2] (by decide)

theorem find?_companyStep (stats : List StatRec) (p : Offer) (c : String) :
    (companyStep stats p).find? (fun s => s.company = c) =
      if compKey p = c then
        some ((((stats.find? (fun s => s.company = c)).map (fun s =>
          { s with total := s.total + 1, ctc := ctcNum p,
                   ctcRange := getCtcRange (ctcNum p) })).getD
          { company := c, branch := "", total := 1,
            month := monthLabel p.year p.monthNum,
            ctc := ctcNum p, ctcRange := getCtcRange (ctcNum p),
            ctcValues := [], avg := none, median := none }))
      else stats.find? (fun s => s.company = c) := by
  unfold companyStep
  rw [List.find?_map]
  have hpred : ((fun s : StatRec => decide (s.company = c)) ∘
      (fun s : StatRec =>
        if s.company = compKey p then
          { s with total := s.total + 1, ctc := ctcNum p,
                   ctcRange := getCtcRange (ctcNum p) }
        else s)) = fun s : StatRec => decide (s.company = c) := by
    funext s
    by_cases h : s.company = compKey p <;> simp [h]
  rw [hpred]
  have hpres : ∀ stats2 : List StatRec, ¬compKey p = c →
      (stats2.find? (fun s => s.company = c)).map
        (fun s : StatRec =>
          if s.company = compKey p then
            { s with total := s.total + 1, ctc := ctcNum p,
                     ctcRange := getCtcRange (ctcNum p) }
          else s) = stats2.find? (fun s => s.company = c) := by
    intro stats2 hc
    cases hfind : stats2.find? (fun s => s.company = c) with
    | none => rfl
    | some s1 =>
      have hs1c : s1.company = c := by simpa using List.find?_some hfind
      have hne : ¬ s1.company = compKey p := by
        rw [hs1c]
        exact fun h => hc h.symm
      simp [hne]
  by_cases hc : compKey p = c
  · subst hc
    by_cases hany : stats.any (fun s => s.company = compKey p)
    · rw [if_pos hany, if_pos rfl]
      obtain ⟨s0, hs0mem, hs0⟩ := List.any_eq_true.mp hany
      have hsome : (stats.find? (fun s => s.company = compKey p)).isSome :=
        List.find?_isSome.mpr ⟨s0, hs0mem, hs0⟩
      obtain ⟨s1, hs1⟩ := Option.isSome_iff_exists.mp hsome
      have hs1c : s1.company = compKey p := by
        simpa using List.find?_some hs1
      rw [hs1]
      simp [hs1c]
    · rw [if_neg hany, if_pos rfl]
      have hnone : stats.find? (fun s => s.company = compKey p) = none := by
        rw [List.find?_eq_none]
        intro x hx
        simp only [decide_eq_true_eq]
        have hall : ∀ x ∈ stats, ¬x.company = compKey p := by simpa using hany
        exact hall x hx
      rw [List.find?_append, hnone]
      simp
  · rw [if_neg hc]
    by_cases hany : stats.any (fun s => s.company = compKey p)
    · rw [if_pos hany]
      exact hpres stats hc
    · rw [if_neg hany, List.find?_append]
      have hnew : (([(⟨compKey p, "", 0, monthLabel p.year p.monthNum, 0, "",
            [], none, none⟩ : StatRec)]).find? (fun s => s.company = c)) = none := by
        simp [hc]
      rw [hnew]
      simp only [Option.or_none]
      exact hpres stats hc

theorem companyStats_append (qs : List Offer) (p : Offer) :
    companyStats (qs ++ [p]) = companyStep (companyStats qs) p := by
  simp [companyStats]

theorem offersFor_append (c : String) (qs : List Offer) (p : Offer) :
    offersFor c (qs ++ [p]) =
      offersFor c qs ++ (if compKey p = c then [p] else []) := by
  simp only [offersFor, List.filter_append]
  congr 1
  by_cases h : compKey p = c <;> simp [h]

theorem companyStats_find (ps : List Offer) (c : String) :
    ((companyStats ps).find? (fun s => s.company = c) = none →
      offersFor c ps = []) ∧
    (∀ s, (companyStats ps).find? (fun s => s.company = c) = some s →
      s.company = c ∧
      s.total = (offersFor c ps).length ∧
      (∃ p0, (offersFor c ps).head? = some p0 ∧
        s.month = monthLabel p0.year p0.monthNum) ∧
      (∃ pl, (offersFor c ps).getLast? = some pl ∧ s.ctc = ctcNum pl ∧
        s.ctcRange = getCtcRange (ctcNum pl))) := by
  induction ps using List.reverseRecOn with
  | nil =>
    constructor
    · intro _
      rfl
    · intro s hs
      simp [companyStats] at hs
  | append_singleton qs p ih =>
    rw [companyStats_append, find?_companyStep, offersFor_append]
    by_cases hc : compKey p = c
    · rw [if_pos hc, if_pos hc]
      constructor
      · intro h
        cases h
      · intro s hs
        cases hfind : (companyStats qs).find? (fun s => s.company = c) with
        | none =>
          rw [hfind] at hs
          simp only [Option.map_none', Option.getD_none] at hs
          have hemp : offersFor c qs = [] := ih.1 hfind
          cases hs
          refine ⟨rfl, ?_, ?_, ?_⟩
          · simp [hemp]
          · refine ⟨p, ?_, rfl⟩
            simp [hemp]
          · refine ⟨p, ?_, rfl, rfl⟩
            simp [hemp]
        | some s1 =>
          rw [hfind] at hs
          simp only [Option.map_some', Option.getD_some] at hs
          obtain ⟨hcomp, htot, ⟨p0, hp0, hmon⟩, ⟨pl, hpl, hctc, hrange⟩⟩ :=
            ih.2 s1 hfind
          have hne : offersFor c qs ≠ [] := by
            intro hemp
            rw [hemp] at hp0
            cases hp0
          cases hs
          refine ⟨hcomp, ?_, ?_, ?_⟩
          · simp [htot]
          · refine ⟨p0, ?_, hmon⟩
            rw [List.head?_append, hp0]
            rfl
          · refine ⟨p, ?_, rfl, rfl⟩
            exact List.getLast?_concat _
    · rw [if_neg hc, if_neg hc]
      simpa using ih

/-- C2 (counterexample): the claim that the `month` field reflects the
last-encountered offer for a company is false — `month` is set only when
the company's record is first created.  On two offers for company "A"
dated January and February 2024, the aggregate's `month` is "Jan 2024",
the label of the first offer, not "Feb 2024", the label of the last. -/
theorem companyStats_month_not_last :
    companyStats [⟨some "A", some 3, 2024, 0, none⟩,
                  ⟨some "A", some 7, 2024, 1, none⟩] =
      [⟨"A", "", 2, "Jan 2024", 7, "5-10", [], none, none⟩] ∧
    monthLabel 2024 1 = "Feb 2024" ∧
    ("Jan 2024" : String) ≠ "Feb 2024" := by
  refine ⟨by decide, by decide, by decide⟩

/-- C2 (amended): for every input sequence of offers and every company
key present in the result, the aggregate record has `total` equal to the
number of offers with that company key, `ctc` and `ctcRange` reflecting
the last-encountered offer for that company (last-write-wins), and
`month` reflecting the first-encountered offer for that company.  In
particular on `[{company:"A",ctc:3},{company:"A",ctc:7}]` it yields
`total = 2`, `ctc = 7`, `ctcRange = "5-10"` (the witness instantiates
exactly this input). -/
theorem companyStats_lastWrite (ps : List Offer) (c : String) (s : StatRec)
    (hfind : (companyStats ps).find? (fun r => r.company = c) = some s) :
    s.company = c ∧
    s.total = (offersFor c ps).length ∧
    (∃ p0, (offersFor c ps).head? = some p0 ∧
      s.month = monthLabel p0.year p0.monthNum) ∧
    (∃ pl, (offersFor c ps).getLast? = some pl ∧ s.ctc = ctcNum pl ∧
      s.ctcRange = getCtcRange (ctcNum pl)) :=
  (companyStats_find ps c).2 s hfind

theorem companyStats_lastWrite_witness :
    (⟨"A", "", 2, "Jan 2024", 7, "5-10", [], none, none⟩ : StatRec).company = "A" ∧
    (⟨"A", "", 2, "Jan 2024", 7, "5-10", [], none, none⟩ : StatRec).total =
      (offersFor "A" [⟨some "A", some 3, 2024, 0, none⟩,
                      ⟨some "A", some 7, 2024, 1, none⟩]).length ∧
    (∃ p0, (offersFor "A" [⟨some "A", some 3, 2024, 0, none⟩,
                           ⟨some "A", some 7, 2024, 1, none⟩]).head? = some p0 ∧
      (⟨"A", "", 2, "Jan 2024", 7, "5-10", [], none, none⟩ : StatRec).month =
        monthLabel p0.year p0.monthNum) ∧
    (∃ pl, (offersFor "A" [⟨some "A", some 3, 2024, 0, none⟩,
                           ⟨some "A", some 7, 2024, 1, none⟩]).getLast? = some pl ∧
      (⟨"A", "", 2, "Jan 2024", 7, "5-10", [], none, none⟩ : StatRec).ctc = ctcNum pl ∧
      (⟨"A", "", 2, "Jan 2024", 7, "5-10", [], none, none⟩ : StatRec).ctcRange =
        getCtcRange (ctcNum pl)) :=
  companyStats_lastWrite
    [⟨some "A", some 3, 2024, 0, none⟩, ⟨some "A", some 7, 2024, 1, none⟩] "A"
    ⟨"A", "", 2, "Jan 2024", 7, "5-10", [], none, none⟩ (by decide)

/-- C9: an offer whose company field is missing or falsy is grouped under
the key `"Unknown"` rather than skipped: its grouping key is `"Unknown"`,
the aggregation produces a record with that key, and that record's
`total` counts every offer grouped under `"Unknown"` (hence is positive). -/
theorem companyStats_unknown (ps : List Offer) (p : Offer) (hp : p ∈ ps)
    (hfalsy : p.company = none ∨ p.company = some "") :
    compKey p = "Unknown" ∧
    ∃ s, (companyStats ps).find? (fun r => r.company = "Unknown") = some s ∧
      s.total = (offersFor "Unknown" ps).length ∧ 0 < s.total := by
  have hkey : compKey p = "Unknown" := by
    rcases hfalsy with h | h <;> simp [compKey, h]
  refine ⟨hkey, ?_⟩
  have hmem : p ∈ offersFor "Unknown" ps := by
    simp [offersFor, List.mem_filter, hp, hkey]
  have hne : offersFor "Unknown" ps ≠ [] := by
    intro h
    rw [h] at hmem
    cases hmem
  cases hfind : (companyStats ps).find? (fun r => r.company = "Unknown") with
  | none => exact absurd ((companyStats_find ps "Unknown").1 hfind) hne
  | some s =>
    obtain ⟨_, htot, _, _⟩ := (companyStats_find ps "Unknown").2 s hfind
    refine ⟨s, rfl, htot, ?_⟩
    rw [htot]
    exact List.length_pos.mpr hne

theorem companyStats_unknown_witness :
    compKey (⟨none, some 3, 2024, 0, none⟩ : Offer) = "Unknown" ∧
    ∃ s, (companyStats [⟨none, some 3, 2024, 0, none⟩]).find?
        (fun r => r.company = "Unknown") = some s ∧
      s.total = (offersFor "Unknown" [⟨none, some 3, 2024, 0, none⟩]).length ∧
      0 < s.total :=
  companyStats_unknown [⟨none, some 3, 2024, 0, none⟩]
    ⟨none, some 3, 2024, 0, none⟩ (by decide) (Or.inl rfl)

theorem companyStep_map_company (stats : List StatRec) (p : Offer) :
    (companyStep stats p).map (fun s => s.company) =
      if stats.any (fun s => s.company = compKey p) then
        stats.map (fun s => s.company)
      else stats.map (fun s => s.company) ++ [compKey p] := by
  simp only [companyStep]
  by_cases hany : stats.any (fun s => s.company = compKey p)
  · rw [if_pos hany, if_pos hany, List.map_map]
    apply List.map_congr_left
    intro s _
    by_cases h : s.company = compKey p <;> simp [h]
  · rw [if_neg hany, if_neg hany, List.map_map, List.map_append]
    congr 1
    · apply List.map_congr_left
      intro s _
      by_cases h : s.company = compKey p <;> simp [h]
    · simp

theorem companyStats_companies_nodup (ps : List Offer) :
    ((companyStats ps).map (fun s => s.company)).Nodup := by
  suffices h : ∀ stats : List StatRec,
      (stats.map (fun s => s.company)).Nodup →
      ((ps.foldl companyStep stats).map (fun s => s.company)).Nodup by
    exact h [] (by simp)
  induction ps with
  | nil => intro stats h; simpa using h
  | cons p ps ih =>
    intro stats h
    rw [List.foldl_cons]
    apply ih
    rw [companyStep_map_company]
    by_cases hany : stats.any (fun s => s.company = compKey p)
    · rw [if_pos hany]
      exact h
    · rw [if_neg hany]
      rw [List.nodup_append]
      refine ⟨h, List.nodup_singleton _, ?_⟩
      intro x hx
      simp only [List.mem_singleton]
      intro hxe
      subst hxe
      obtain ⟨s, hsmem, hsc⟩ := List.mem_map.mp hx
      have hall : ∀ x ∈ stats, ¬x.company = compKey p := by simpa using hany
      exact hall s hsmem hsc

theorem branchStep_map_branch (stats : List StatRec) (p : Offer) :
    (branchStep stats p).map (fun s => s.branch) =
      if stats.any (fun s => s.branch = getBranch p.reg_no) then
        stats.map (fun s => s.branch)
      else stats.map (fun s => s.branch) ++ [getBranch p.reg_no] := by
  simp only [branchStep]
  by_cases hany : stats.any (fun s => s.branch = getBranch p.reg_no)
  · rw [if_pos hany, if_pos hany, List.map_map]
    apply List.map_congr_left
    intro s _
    by_cases h : s.branch = getBranch p.reg_no <;> simp [h]
  · rw [if_neg hany, if_neg hany, List.map_map, List.map_append]
    congr 1
    · apply List.map_congr_left
      intro s _
      by_cases h : s.branch = getBranch p.reg_no <;> simp [h]
    · simp

theorem branchStats_fold_nodup (ps : List Offer) :
    (((ps.foldl branchStep []).map (fun s => s.branch))).Nodup := by
  suffices h : ∀ stats : List StatRec,
      (stats.map (fun s => s.branch)).Nodup →
      ((ps.foldl branchStep stats).map (fun s => s.branch)).Nodup by
    exact h [] (by simp)
  induction ps with
  | nil => intro stats h; simpa using h
  | cons p ps ih =>
    intro stats h
    rw [List.foldl_cons]
    apply ih
    rw [branchStep_map_branch]
    by_cases hany : stats.any (fun s => s.branch = getBranch p.reg_no)
    · rw [if_pos hany]
      exact h
    · rw [if_neg hany]
      rw [List.nodup_append]
      refine ⟨h, List.nodup_singleton _, ?_⟩
      intro x hx
      simp only [List.mem_singleton]
      intro hxe
      subst hxe
      obtain ⟨s, hsmem, hsc⟩ := List.mem_map.mp hx
      have hall : ∀ x ∈ stats, ¬x.branch = getBranch p.reg_no := by
        simpa using hany
      exact hall s hsmem hsc

theorem branchStats_branches_nodup (ps : List Offer) :
    ((branchStats ps).map (fun s => s.branch)).Nodup := by
  have heq : (branchStats ps).map (fun s => s.branch) =
      ((ps.foldl branchStep []).map (fun s => s.branch)) := by
    simp only [branchStats, List.map_map]
    apply List.map_congr_left
    intro s _
    rfl
  rw [heq]
  exact branchStats_fold_nodup ps

theorem monthStep_map_fst (stats : List (String × StatRec)) (p : Offer) :
    (monthStep stats p).map Prod.fst =
      if stats.any (fun s => s.1 = monthKey p.year p.monthNum) then
        stats.map Prod.fst
      else stats.map Prod.fst ++ [monthKey p.year p.monthNum] := by
  simp only [monthStep]
  by_cases hany : stats.any (fun s => s.1 = monthKey p.year p.monthNum)
  · rw [if_pos hany, if_pos hany, List.map_map]
    apply List.map_congr_left
    intro s _
    by_cases h : s.1 = monthKey p.year p.monthNum <;> simp [h]
  · rw [if_neg hany, if_neg hany, List.map_map, List.map_append]
    congr 1
    · apply List.map_congr_left
      intro s _
      by_cases h : s.1 = monthKey p.year p.monthNum <;> simp [h]
    · simp

theorem monthlyTrendsAux_keys_nodup (ps : List Offer) :
    ((monthlyTrendsAux ps).map Prod.fst).Nodup := by
  suffices h : ∀ stats : List (String × StatRec),
      (stats.map Prod.fst).Nodup →
      ((ps.foldl monthStep stats).map Prod.fst).Nodup by
    exact h [] (by simp)
  induction ps with
  | nil => intro stats h; simpa using h
  | cons p ps ih =>
    intro stats h
    rw [List.foldl_cons]
    apply ih
    rw [monthStep_map_fst]
    by_cases hany : stats.any (fun s => s.1 = monthKey p.year p.monthNum)
    · rw [if_pos hany]
      exact h
    · rw [if_neg hany]
      rw [List.nodup_append]
      refine ⟨h, List.nodup_singleton _, ?_⟩
      intro x hx
      simp only [List.mem_singleton]
      intro hxe
      subst hxe
      obtain ⟨s, hsmem, hsc⟩ := List.mem_map.mp hx
      exact hany (List.any_eq_true.mpr ⟨s, hsmem, by simpa using hsc⟩)

theorem toDigitsCore_append (fuel : Nat) :
    ∀ (n : Nat) (ds : List Char),
      Nat.toDigitsCore 10 fuel n ds = Nat.toDigitsCore 10 fuel n [] ++ ds := by
  induction fuel with
  | zero =>
    intro n ds
    simp [Nat.toDigitsCore]
  | succ fuel ih =>
    intro n ds
    simp only [Nat.toDigitsCore]
    by_cases h : n / 10 = 0
    · simp [h]
    · rw [if_neg h, if_neg h, ih (n / 10) (Nat.digitChar (n % 10) :: ds),
        ih (n / 10) [Nat.digitChar (n % 10)]]
      simp

theorem toDigitsCore_fuel :
    ∀ (fuel fuel' n : Nat), n < fuel → n < fuel' →
      Nat.toDigitsCore 10 fuel n [] = Nat.toDigitsCore 10 fuel' n [] := by
  intro fuel
  induction fuel with
  | zero =>
    intro fuel' n h
    omega
  | succ fuel ih =>
    intro fuel' n h h'
    cases fuel' with
    | zero => omega
    | succ fuel' =>
      simp only [Nat.toDigitsCore]
      by_cases h0 : n / 10 = 0
      · simp [h0]
      · rw [if_neg h0, if_neg h0,
          toDigitsCore_append fuel (n / 10), toDigitsCore_append fuel' (n / 10)]
        congr 1
        exact ih fuel' (n / 10) (by omega) (by omega)

theorem toDigits_step (n : Nat) :
    Nat.toDigits 10 n =
      if n < 10 then [Nat.digitChar n]
      else Nat.toDigits 10 (n / 10) ++ [Nat.digitChar (n % 10)] := by
  simp only [Nat.toDigits, Nat.toDigitsCore]
  by_cases h : n < 10
  · have h0 : n / 10 = 0 := Nat.div_eq_of_lt h
    rw [if_pos h0, if_pos h, Nat.mod_eq_of_lt h]
  · have h0 : ¬n / 10 = 0 := by omega
    rw [if_neg h0, if_neg h,
      toDigitsCore_append n (n / 10) [Nat.digitChar (n % 10)]]
    congr 1
    exact toDigitsCore_fuel n (n / 10 + 1) (n / 10) (by omega) (by omega)

theorem parseDigits_toDigits (n : Nat) : parseDigits (Nat.toDigits 10 n) = n := by
  induction n using Nat.strong_induction_on with
  | _ n ih =>
    rw [toDigits_step]
    by_cases h : n < 10
    · rw [if_pos h]
      have hd : ∀ d, d < 10 → parseDigits [Nat.digitChar d] = d := by decide
      exact hd n h
    · rw [if_neg h]
      have happ : ∀ (xs : List Char) (c : Char),
          parseDigits (xs ++ [c]) = parseDigits xs * 10 + charVal c := by
        intro xs c
        simp [parseDigits, List.foldl_append]
      rw [happ, ih (n / 10) (by omega)]
      have hc : ∀ d, d < 10 → charVal (Nat.digitChar d) = d := by decide
      rw [hc (n % 10) (by omega)]
      omega

theorem toDigits_no_dash (n : Nat) : ∀ c ∈ Nat.toDigits 10 n, c ≠ '-' := by
  induction n using Nat.strong_induction_on with
  | _ n ih =>
    rw [toDigits_step]
    by_cases h : n < 10
    · rw [if_pos h]
      intro c hc
      simp only [List.mem_singleton] at hc
      subst hc
      have hd : ∀ d, d < 10 → Nat.digitChar d ≠ '-' := by decide
      exact hd n h
    · rw [if_neg h]
      intro c hc
      rcases List.mem_append.mp hc with h1 | h1
      · exact ih (n / 10) (by omega) c h1
      · simp only [List.mem_singleton] at h1
        subst h1
        have hd : ∀ d, d < 10 → Nat.digitChar d ≠ '-' := by decide
        exact hd (n % 10) (by omega)

theorem toDigits_ten_inj (a b : Nat)
    (h : Nat.toDigits 10 a = Nat.toDigits 10 b) : a = b := by
  calc a = parseDigits (Nat.toDigits 10 a) := (parseDigits_toDigits a).symm
    _ = parseDigits (Nat.toDigits 10 b) := by rw [h]
    _ = b := parseDigits_toDigits b

theorem append_dash_inj :
    ∀ (a1 b1 a2 b2 : List Char),
      (∀ c ∈ a1, c ≠ '-') → (∀ c ∈ a2, c ≠ '-') →
      a1 ++ '-' :: b1 = a2 ++ '-' :: b2 → a1 = a2 ∧ b1 = b2 := by
  intro a1
  induction a1 with
  | nil =>
    intro b1 a2 b2 _ h2 heq
    cases a2 with
    | nil => simpa using heq
    | cons x a2 =>
      simp only [List.nil_append, List.cons_append, List.cons.injEq] at heq
      exact absurd heq.1.symm (h2 x (by simp))
  | cons x a1 ih =>
    intro b1 a2 b2 h1 h2 heq
    cases a2 with
    | nil =>
      simp only [List.cons_append, List.nil_append, List.cons.injEq] at heq
      exact absurd heq.1 (h1 x (by simp))
    | cons y a2 =>
      simp only [List.cons_append, List.cons.injEq] at heq
      obtain ⟨hxy, hrest⟩ := heq
      obtain ⟨ha, hb⟩ := ih b1 a2 b2 (fun c hc => h1 c (by simp [hc]))
        (fun c hc => h2 c (by simp [hc])) hrest
      exact ⟨by rw [hxy, ha], hb⟩

theorem monthKey_inj (y1 m1 y2 m2 : Nat)
    (h : monthKey y1 m1 = monthKey y2 m2) : y1 = y2 ∧ m1 = m2 := by
  have hdata := congrArg String.data h
  simp only [monthKey, String.data_append] at hdata
  rw [List.append_assoc, List.append_assoc, List.singleton_append] at hdata
  have hy1 : (toString y1).data = Nat.toDigits 10 y1 := rfl
  have hy2 : (toString y2).data = Nat.toDigits 10 y2 := rfl
  have hm1 : (toString (m1 + 1)).data = Nat.toDigits 10 (m1 + 1) := rfl
  have hm2 : (toString (m2 + 1)).data = Nat.toDigits 10 (m2 + 1) := rfl
  rw [hy1, hy2, hm1, hm2] at hdata
  obtain ⟨ha, hb⟩ := append_dash_inj _ _ _ _
    (toDigits_no_dash y1) (toDigits_no_dash y2) hdata
  refine ⟨toDigits_ten_inj y1 y2 ha, ?_⟩
  have := toDigits_ten_inj (m1 + 1) (m2 + 1) hb
  omega

/-- C8: for every input sequence of offers the grouping keys are unique
within each aggregate collection — company names in the company
aggregates, branch codes in the branch aggregates, and the year-month
object keys of the monthly trends are each pairwise distinct — and the
monthly key (the string `"<year>-<month+1>"`) is injective in the
(full year, month number) pair, so months with the same name in
different years can never collide into one entry. -/
theorem groupingKeys_unique (ps : List Offer) :
    ((companyStats ps).map (fun s => s.company)).Nodup ∧
    ((branchStats ps).map (fun s => s.branch)).Nodup ∧
    ((monthlyTrendsAux ps).map Prod.fst).Nodup ∧
    (∀ y1 m1 y2 m2 : Nat, monthKey y1 m1 = monthKey y2 m2 →
      y1 = y2 ∧ m1 = m2) :=
  ⟨companyStats_companies_nodup ps, branchStats_branches_nodup ps,
    monthlyTrendsAux_keys_nodup ps,
    fun y1 m1 y2 m2 h => monthKey_inj y1 m1 y2 m2 h⟩

theorem groupingKeys_unique_witness : 2023 = 2023 ∧ 5 = 5 :=
  (groupingKeys_unique []).2.2.2 2023 5 2023 5 rfl

theorem companyStats_no_avg (ps : List Offer) :
    ∀ s ∈ companyStats ps, s.avg = none ∧ s.median = none := by
  suffices h : ∀ stats : List StatRec,
      (∀ s ∈ stats, s.avg = none ∧ s.median = none) →
      ∀ s ∈ ps.foldl companyStep stats, s.avg = none ∧ s.median = none by
    exact h [] (by simp)
  induction ps with
  | nil =>
    intro stats h
    simpa using h
  | cons p ps ih =>
    intro stats h
    rw [List.foldl_cons]
    apply ih
    intro s hs
    simp only [companyStep] at hs
    rcases List.mem_map.mp hs with ⟨t, ht, hts⟩
    have ht' : t.avg = none ∧ t.median = none := by
      by_cases hany : stats.any (fun s => s.company = compKey p)
      · rw [if_pos hany] at ht
        exact h t ht
      · rw [if_neg hany] at ht
        rcases List.mem_append.mp ht with h1 | h1
        · exact h t h1
        · simp only [List.mem_singleton] at h1
          subst h1
          exact ⟨rfl, rfl⟩
    subst hts
    by_cases hcomp : t.company = compKey p <;> simp [hcomp, ht'.1, ht'.2]

theorem applyFilters_sublist (data : List StatRec) (t s r : String) :
    (applyFilters data t s r).Sublist data := by
  simp only [applyFilters]
  split_ifs <;>
    first
      | exact List.Sublist.refl _
      | exact List.filter_sublist _
      | exact (List.filter_sublist _).trans (List.filter_sublist _)

/-- C10: on a company aggregate collection (whose records never carry
`avg` or `median` fields), `filterAndSort` with sort mode `avg` or
`median` returns the filtered records unchanged, in their original
relative order: every pairwise comparison coerces the absent fields to 0,
so the comparator ties everywhere and the stable sort is the identity. -/
theorem filterAndSort_company_keeps_order (ps : List Offer)
    (search selectedRange : String) :
    filterAndSort (companyStats ps) "company" search selectedRange "avg" =
      applyFilters (companyStats ps) "company" search selectedRange ∧
    filterAndSort (companyStats ps) "company" search selectedRange "median" =
      applyFilters (companyStats ps) "company" search selectedRange := by
  have hnone : ∀ x ∈ applyFilters (companyStats ps) "company" search selectedRange,
      x.avg = none ∧ x.median = none := by
    intro x hx
    exact companyStats_no_avg ps x
      ((applyFilters_sublist (companyStats ps) "company" search selectedRange).mem hx)
  constructor
  · simp only [filterAndSort]
    rw [if_neg (by decide)]
    simp only [if_pos]
    apply List.mergeSort_of_sorted
    apply List.pairwise_of_forall_mem_list
    intro a ha b hb
    simp [(hnone a ha).1, (hnone b hb).1]
  · simp only [filterAndSort]
    rw [if_neg (by decide), if_neg (by decide)]
    simp only [if_pos]
    apply List.mergeSort_of_sorted
    apply List.pairwise_of_forall_mem_list
    intro a ha b hb
    simp [(hnone a ha).2, (hnone b hb).2]

unseal List.merge List.mergeSort in
/-- C7: `filterAndSort` first keeps the records whose grouping key field
(`company` for company aggregates, `branch` otherwise) contains the
search term case-insensitively, then for company aggregates with a
selected range other than `"all"` keeps the records whose `ctcRange`
equals it (membership characterisation below), and returns a new
sequence that is a permutation of the filtered records sorted descending
by count, average, or median according to the sort mode.  On the branch
aggregates `[{branch:"ENG",total:5},{branch:"SCI",total:9}]`, search
`"eng"` returns only the `"ENG"` record, and sorting the unfiltered
input by count descending returns `"SCI"` before `"ENG"`. -/
theorem filterAndSort_spec :
    (filterAndSort [⟨"", "ENG", 5, "", 0, "", [], none, none⟩,
                    ⟨"", "SCI", 9, "", 0, "", [], none, none⟩]
        "branch" "eng" "all" "students" =
      [⟨"", "ENG", 5, "", 0, "", [], none, none⟩]) ∧
    (filterAndSort [⟨"", "ENG", 5, "", 0, "", [], none, none⟩,
                    ⟨"", "SCI", 9, "", 0, "", [], none, none⟩]
        "branch" "" "all" "students" =
      [⟨"", "SCI", 9, "", 0, "", [], none, none⟩,
       ⟨"", "ENG", 5, "", 0, "", [], none, none⟩]) ∧
    (∀ (data : List StatRec) (type search selectedRange : String) (x : StatRec),
      x ∈ applyFilters data type search selectedRange ↔
        x ∈ data ∧
        (search ≠ "" →
          strIncludes ((if type = "company" then x.company else x.branch).data.map
            Char.toLower) (search.data.map Char.toLower) = true) ∧
        (type = "company" ∧ selectedRange ≠ "all" → x.ctcRange = selectedRange)) ∧
    (∀ (data : List StatRec) (type search selectedRange : String),
      (filterAndSort data type search selectedRange "students").Perm
        (applyFilters data type search selectedRange) ∧
      (filterAndSort data type search selectedRange "students").Pairwise
        (fun a b => b.total ≤ a.total)) ∧
    (∀ (data : List StatRec) (type search selectedRange : String),
      (filterAndSort data type search selectedRange "avg").Perm
        (applyFilters data type search selectedRange) ∧
      (filterAndSort data type search selectedRange "avg").Pairwise
        (fun a b => b.avg.getD 0 ≤ a.avg.getD 0)) ∧
    (∀ (data : List StatRec) (type search selectedRange : String),
      (filterAndSort data type search selectedRange "median").Perm
        (applyFilters data type search selectedRange) ∧
      (filterAndSort data type search selectedRange "median").Pairwise
        (fun a b => b.median.getD 0 ≤ a.median.getD 0)) := by
  refine ⟨by rfl, by rfl, ?_, ?_, ?_, ?_⟩
  · intro data type search selectedRange x
    simp only [applyFilters]
    by_cases hs : search = ""
    · rw [if_pos hs]
      by_cases ht : type = "company" ∧ selectedRange ≠ "all"
      · rw [if_pos ht]
        simp only [List.mem_filter, decide_eq_true_eq]
        constructor
        · rintro ⟨hx, hr⟩
          exact ⟨hx, fun hcon => absurd hs hcon, fun _ => hr⟩
        · rintro ⟨hx, _, hr⟩
          exact ⟨hx, hr ht⟩
      · rw [if_neg ht]
        constructor
        · intro hx
          exact ⟨hx, fun hcon => absurd hs hcon, fun hcon => absurd hcon ht⟩
        · rintro ⟨hx, _, _⟩
          exact hx
    · rw [if_neg hs]
      by_cases ht : type = "company" ∧ selectedRange ≠ "all"
      · rw [if_pos ht]
        simp only [List.mem_filter, decide_eq_true_eq]
        constructor
        · rintro ⟨⟨hx, hinc⟩, hr⟩
          exact ⟨hx, fun _ => hinc, fun _ => hr⟩
        · rintro ⟨hx, hinc, hr⟩
          exact ⟨⟨hx, hinc hs⟩, hr ht⟩
      · rw [if_neg ht]
        simp only [List.mem_filter]
        constructor
        · rintro ⟨hx, hinc⟩
          exact ⟨hx, fun _ => hinc, fun hcon => absurd hcon ht⟩
        · rintro ⟨hx, hinc, _⟩
          exact ⟨hx, hinc hs⟩
  · intro data type search selectedRange
    simp only [filterAndSort]
    simp only [if_true]
    refine ⟨List.mergeSort_perm _ _, ?_⟩
    have htrans : ∀ a b c : StatRec, decide (b.total ≤ a.total) = true →
        decide (c.total ≤ b.total) = true → decide (c.total ≤ a.total) = true := by
      intro a b c h1 h2
      simp only [decide_eq_true_eq] at h1 h2 ⊢
      omega
    have htotal : ∀ a b : StatRec,
        (decide (b.total ≤ a.total) || decide (a.total ≤ b.total)) = true := by
      intro a b
      simp only [Bool.or_eq_true, decide_eq_true_eq]
      omega
    have hp := List.sorted_mergeSort htrans htotal
      (applyFilters data type search selectedRange)
    exact hp.imp (fun h => by simpa using h)
  · intro data type search selectedRange
    simp only [filterAndSort]
    rw [if_neg (by decide)]
    simp only [if_pos]
    refine ⟨List.mergeSort_perm _ _, ?_⟩
    have htrans : ∀ a b c : StatRec,
        decide (b.avg.getD 0 ≤ a.avg.getD 0) = true →
        decide (c.avg.getD 0 ≤ b.avg.getD 0) = true →
        decide (c.avg.getD 0 ≤ a.avg.getD 0) = true := by
      intro a b c h1 h2
      simp only [decide_eq_true_eq] at h1 h2 ⊢
      linarith
    have htotal : ∀ a b : StatRec,
        (decide (b.avg.getD 0 ≤ a.avg.getD 0) ||
          decide (a.avg.getD 0 ≤ b.avg.getD 0)) = true := by
      intro a b
      simp only [Bool.or_eq_true, decide_eq_true_eq]
      exact le_total _ _
    have hp := List.sorted_mergeSort htrans htotal
      (applyFilters data type search selectedRange)
    exact hp.imp (fun h => by simpa using h)
  · intro data type search selectedRange
    simp only [filterAndSort]
    rw [if_neg (by decide), if_neg (by decide)]
    simp only [if_pos]
    refine ⟨List.mergeSort_perm _ _, ?_⟩
    have htrans : ∀ a b c : StatRec,
        decide (b.median.getD 0 ≤ a.median.getD 0) = true →
        decide (c.median.getD 0 ≤ b.median.getD 0) = true →
        decide (c.median.getD 0 ≤ a.median.getD 0) = true := by
      intro a b c h1 h2
      simp only [decide_eq_true_eq] at h1 h2 ⊢
      linarith
    have htotal : ∀ a b : StatRec,
        (decide (b.median.getD 0 ≤ a.median.getD 0) ||
          decide (a.median.getD 0 ≤ b.median.getD 0)) = true := by
      intro a b
      simp only [Bool.or_eq_true, decide_eq_true_eq]
      exact le_total _ _
    have hp := List.sorted_mergeSort htrans htotal
      (applyFilters data type search selectedRange)
    exact hp.imp (fun h => by simpa using h)

theorem filterAndSort_spec_witness :
    (⟨"", "ENG", 5, "", 0, "", [], none, none⟩ : StatRec) ∈
      applyFilters [⟨"", "ENG", 5, "", 0, "", [], none, none⟩]
        "branch" "eng" "all" :=
  (filterAndSort_spec.2.2.1 [⟨"", "ENG", 5, "", 0, "", [], none, none⟩]
    "branch" "eng" "all" ⟨"", "ENG", 5, "", 0, "", [], none, none⟩).mpr
    ⟨by decide, fun _ => by decide, fun hcon => absurd rfl hcon.2⟩
